import Mathlib

set_option autoImplicit false

namespace EnglishForge

/-!
Shallow embedding of the replica-reconciliation engine of the EnglishForge
vocabulary app: the data model (`types.ts`), the tombstone-aware merge
`smartMergeLibraries` and the sync entry point `pullAndMerge`
(`src/utils/cloudSync.ts`), and the superseded item-union merge
`mergeLibraries` from the older sync module.

Timestamps (epoch milliseconds) are embedded as `Nat`.  JavaScript `Map`s
and `Set`s are embedded as insertion-ordered association lists / lists,
matching the iteration order that `Array.from` observes.  JavaScript's
`x || y` on numbers treats `0` and `undefined` as falsy; optional numeric
fields are `Option Nat` and the fallback is spelled out explicitly.
-/

/-- Item kind, from `VocabularyItem.type` in `types.ts`: `'word' | 'sentence'`. -/
inductive ItemType where
  | word
  | sentence
deriving DecidableEq, Repr

/-- String rendering of an item kind, as interpolated by the template
literal in `uniqueKeyOfItem`. -/
def ItemType.str : ItemType → String
  | .word => "word"
  | .sentence => "sentence"

/-- `VocabularyItem` from `types.ts`. -/
structure VocabularyItem where
  id : String
  chinese : String
  english : String
  type : ItemType
  createdAt : Nat
deriving DecidableEq, Repr

/-- `VocabularyLibrary.category` from `types.ts`: `'dictation' | 'read-speak'`. -/
inductive LibraryCategory where
  | dictation
  | readSpeak
deriving DecidableEq, Repr

/-- `VocabularyLibrary` from `types.ts`; `updatedAt` is optional there. -/
structure VocabularyLibrary where
  id : String
  name : String
  category : Option LibraryCategory
  items : List VocabularyItem
  createdAt : Nat
  updatedAt : Option Nat
deriving DecidableEq, Repr

/-- Effective timestamp of a library, embedding the JavaScript expression
`lib.updatedAt || lib.createdAt || 0` from `smartMergeLibraries`
(`cloudSync.ts`): a present *nonzero* `updatedAt` wins, otherwise
`createdAt` (itself falling through to `0` when zero, which for `Nat` is
the identity). -/
def effTime (lib : VocabularyLibrary) : Nat :=
  match lib.updatedAt with
  | some u => if u = 0 then lib.createdAt else u
  | none => lib.createdAt

/-- One insertion into a JavaScript `Set` iterated in insertion order:
adding an element already present is a no-op, a new element goes to the
back. -/
def jsSetInsert (s : List String) (x : String) : List String :=
  if x ∈ s then s else s ++ [x]

/-- `new Set([...xs])` followed by `Array.from`: deduplicate keeping the
first occurrence of each element, in order. -/
def jsSetOfList (l : List String) : List String :=
  l.foldl jsSetInsert []

/-- Insertion-ordered map from library id to library, embedding the
JavaScript `Map<string, VocabularyLibrary>` used by both merge
strategies. -/
abbrev MergeMap := List (String × VocabularyLibrary)

/-- `Map.get`. -/
def mapGet (m : MergeMap) (k : String) : Option VocabularyLibrary :=
  match m with
  | [] => none
  | (k', v) :: rest => if k' = k then some v else mapGet rest k

/-- `Map.set`: replace in place when the key exists (keeping its
insertion position), otherwise append at the back. -/
def mapSet (m : MergeMap) (k : String) (v : VocabularyLibrary) : MergeMap :=
  match m with
  | [] => [(k, v)]
  | (k', v') :: rest => if k' = k then (k, v) :: rest else (k', v') :: mapSet rest k v

/-- The `processLib` closure inside `smartMergeLibraries` (`cloudSync.ts`):
skip tombstoned ids; insert unseen ids; on a collision keep the incumbent
unless the incoming library's effective timestamp is strictly larger. -/
def processLib (dels : List String) (m : MergeMap) (lib : VocabularyLibrary) : MergeMap :=
  if lib.id ∈ dels then m
  else
    match mapGet m lib.id with
    | none => mapSet m lib.id lib
    | some existing => if effTime existing < effTime lib then mapSet m lib.id lib else m

/-- `smartMergeLibraries` from `cloudSync.ts`: union the tombstone lists
into a `Set`, fold the local then the remote libraries through
`processLib`, and return the map's values plus the tombstone array. -/
def smartMergeLibraries (localLibs remoteLibs : List VocabularyLibrary)
    (localDeletedIds remoteDeletedIds : List String) :
    List VocabularyLibrary × List String :=
  let allDeletedIds := jsSetOfList (localDeletedIds ++ remoteDeletedIds)
  let mergedMap :=
    remoteLibs.foldl (processLib allDeletedIds)
      (localLibs.foldl (processLib allDeletedIds) [])
  (mergedMap.map Prod.snd, allDeletedIds)

/-- `uniqueKeyOfItem` from the superseded sync module:
the template literal `` `${it.type}#${it.english}#${it.chinese}` ``. -/
def uniqueKeyOfItem (it : VocabularyItem) : String :=
  it.type.str ++ "#" ++ it.english ++ "#" ++ it.chinese

/-- The item-appending loop inside `pushLib` (superseded sync module):
walk the incoming items, appending each one whose key is not in `seen`
and recording its key. -/
def unionItemsGo (acc : List VocabularyItem) (seen : List String) :
    List VocabularyItem → List VocabularyItem
  | [] => acc
  | it :: rest =>
    if uniqueKeyOfItem it ∈ seen then unionItemsGo acc seen rest
    else unionItemsGo (acc ++ [it]) (seen ++ [uniqueKeyOfItem it]) rest

/-- Merging an incoming item list into an existing one, as `pushLib`
does: `seen` starts as the keys of the existing items, and each incoming
item with an unseen key is pushed onto the existing array. -/
def unionItems (existingItems incoming : List VocabularyItem) : List VocabularyItem :=
  unionItemsGo existingItems (existingItems.map uniqueKeyOfItem) incoming

/-- One step of a stable descending insertion sort on `createdAt`. -/
def insertByCreatedAtDesc (x : VocabularyItem) : List VocabularyItem → List VocabularyItem
  | [] => [x]
  | y :: ys => if y.createdAt ≤ x.createdAt then x :: y :: ys else y :: insertByCreatedAtDesc x ys

/-- `items.sort((x, y) => (y.createdAt || 0) - (x.createdAt || 0))`:
ECMAScript `Array.prototype.sort` is stable, so this is the unique
reordering that is descending on `createdAt` and keeps the original
relative order of equal keys; a stable insertion sort realises it. -/
def sortByCreatedAtDesc (l : List VocabularyItem) : List VocabularyItem :=
  l.foldr insertByCreatedAtDesc []

/-- `pushLib` from the superseded sync module's `mergeLibraries`: first
occurrence of an id is stored as-is (the code clones it, which is
structural identity here); a later occurrence only contributes the items
of its copy whose key is new, after which the stored items are re-sorted
by `createdAt` descending. -/
def pushLib (byId : MergeMap) (lib : VocabularyLibrary) : MergeMap :=
  match mapGet byId lib.id with
  | none => mapSet byId lib.id lib
  | some existed =>
    mapSet byId lib.id
      { existed with items := sortByCreatedAtDesc (unionItems existed.items lib.items) }

/-- `mergeLibraries` from the superseded sync module: fold both sides
(first input first) through `pushLib` and return the map's values. -/
def mergeLibraries (a b : List VocabularyLibrary) : List VocabularyLibrary :=
  ((a ++ b).foldl pushLib []).map Prod.snd

/-- Modelled from the spec: `PracticeProgress` is declared in the storage
module, which is not among the provided sources; the spec describes it as
recording "which library, position, and a `timestamp`".  Only `timestamp`
is consulted by the sync code in `cloudSync.ts`. -/
structure PracticeProgress where
  libraryId : String
  position : Nat
  timestamp : Nat
deriving DecidableEq, Repr

/-- The `chooseProgress` immediately-invoked closure in `pullAndMerge`
(`cloudSync.ts`): with both present, remote wins when
`remoteProgress.timestamp >= localProgress.timestamp`; otherwise
`remoteProgress || localProgress || null`. -/
def chooseProgress (remoteProgress localProgress : Option PracticeProgress) :
    Option PracticeProgress :=
  match remoteProgress, localProgress with
  | some r, some l => if l.timestamp ≤ r.timestamp then some r else some l
  | some r, none => some r
  | none, some l => some l
  | none, none => none

/-- A field of the remote document as fetched, before validation: either
an actual array or any other value (`Array.isArray` is false), kept
opaque. -/
inductive RawField (α : Type) where
  | arr (elems : List α)
  | other (value : String)
deriving DecidableEq

/-- `Array.isArray(x) ? x : []`, the defensive coercion in `pullAndMerge`. -/
def coerceArray {α : Type} : RawField α → List α
  | .arr l => l
  | .other _ => []

/-- The remote profile document as fetched in `pullAndMerge`, with the
two list fields still unvalidated. -/
structure RemoteDoc where
  libraries : RawField VocabularyLibrary
  deletedLibraryIds : RawField String
  practiceProgress : Option PracticeProgress

/-- The Local Store's contents relevant to a sync: libraries, the
tombstone list, and practice progress. -/
structure LocalState where
  libraries : List VocabularyLibrary
  deletedLibraryIds : List String
  practiceProgress : Option PracticeProgress
deriving DecidableEq

/-- The document `pullAndMerge` uploads (`_ts`, a server-side timestamp,
is outside the model). -/
structure CloudPayload where
  libraries : List VocabularyLibrary
  deletedLibraryIds : List String
  practiceProgress : Option PracticeProgress
  updatedAt : Nat
deriving DecidableEq

/-- The pure core of `pullAndMerge` (`cloudSync.ts`): given the fetched
snapshot (`none` when the document does not exist), the local state and
the current time, return the resulting local state and the uploaded
payload.  On first sync the local snapshot is uploaded unchanged; else the
raw fields are coerced, `smartMergeLibraries` runs, the merged libraries
replace the local ones, tombstones unknown locally are appended
(`addDeletedLibraryId`, modelled from the spec as appending to the stored
list), and the resolved progress is persisted when non-null. -/
def pullAndMergeCore (snap : Option RemoteDoc) (st : LocalState) (now : Nat) :
    LocalState × CloudPayload :=
  match snap with
  | none =>
    (st,
     { libraries := st.libraries, deletedLibraryIds := st.deletedLibraryIds,
       practiceProgress := st.practiceProgress, updatedAt := now })
  | some data =>
    let remoteLibs := coerceArray data.libraries
    let remoteDeletedIds := coerceArray data.deletedLibraryIds
    let res := smartMergeLibraries st.libraries remoteLibs st.deletedLibraryIds remoteDeletedIds
    let newLocalDeleted :=
      st.deletedLibraryIds ++ res.2.filter (fun i => decide (i ∉ st.deletedLibraryIds))
    let chosen := chooseProgress data.practiceProgress st.practiceProgress
    let newLocalProgress := match chosen with
      | some p => some p
      | none => st.practiceProgress
    ({ libraries := res.1, deletedLibraryIds := newLocalDeleted,
       practiceProgress := newLocalProgress },
     { libraries := res.1, deletedLibraryIds := res.2,
       practiceProgress := chosen, updatedAt := now })

/-! ### Lemmas on the JavaScript-`Set` embedding -/

theorem mem_foldl_jsSetInsert (l : List String) (s : List String) (x : String) :
    x ∈ l.foldl jsSetInsert s ↔ x ∈ s ∨ x ∈ l := by
  induction l generalizing s with
  | nil => simp
  | cons a t ih =>
    rw [List.foldl_cons, ih]
    unfold jsSetInsert
    by_cases h : a ∈ s
    · simp only [if_pos h, List.mem_cons]
      constructor
      · rintro (hx | hx)
        · exact Or.inl hx
        · exact Or.inr (Or.inr hx)
      · rintro (hx | hx | hx)
        · exact Or.inl hx
        · exact Or.inl (hx ▸ h)
        · exact Or.inr hx
    · simp only [if_neg h, List.mem_append, List.mem_singleton, List.mem_cons]
      tauto

theorem mem_jsSetOfList (l : List String) (x : String) :
    x ∈ jsSetOfList l ↔ x ∈ l := by
  unfold jsSetOfList
  rw [mem_foldl_jsSetInsert]
  simp

theorem nodup_foldl_jsSetInsert (l : List String) (s : List String) (hs : s.Nodup) :
    (l.foldl jsSetInsert s).Nodup := by
  induction l generalizing s with
  | nil => exact hs
  | cons a t ih =>
    rw [List.foldl_cons]
    apply ih
    unfold jsSetInsert
    by_cases h : a ∈ s
    · simpa [h] using hs
    · simpa [h, List.nodup_append] using hs

theorem nodup_jsSetOfList (l : List String) : (jsSetOfList l).Nodup :=
  nodup_foldl_jsSetInsert l [] List.nodup_nil

theorem foldl_jsSetInsert_of_subset (l : List String) (s : List String)
    (h : ∀ x ∈ l, x ∈ s) : l.foldl jsSetInsert s = s := by
  induction l with
  | nil => rfl
  | cons a t ih =>
    rw [List.foldl_cons]
    have ha : jsSetInsert s a = s := by
      unfold jsSetInsert
      simp [h a (List.mem_cons_self a t)]
    rw [ha]
    exact ih (fun x hx => h x (List.mem_cons_of_mem a hx))

theorem foldl_jsSetInsert_fresh (l : List String) :
    ∀ s : List String, l.Nodup → (∀ x ∈ l, x ∉ s) → l.foldl jsSetInsert s = s ++ l := by
  induction l with
  | nil =>
    intro s _ _
    simp
  | cons a t ih =>
    intro s hl h
    rw [List.foldl_cons]
    have ha : jsSetInsert s a = s ++ [a] := by
      unfold jsSetInsert
      simp [h a (List.mem_cons_self a t)]
    have hfresh : ∀ x ∈ t, x ∉ s ++ [a] := by
      intro x hx
      rw [List.mem_append, List.mem_singleton]
      rintro (hxs | hxa)
      · exact h x (List.mem_cons_of_mem a hx) hxs
      · exact (List.nodup_cons.mp hl).1 (hxa ▸ hx)
    rw [ha, ih (s ++ [a]) (List.Nodup.of_cons hl) hfresh]
    simp

theorem jsSetOfList_of_nodup (l : List String) (hl : l.Nodup) :
    jsSetOfList l = l := by
  unfold jsSetOfList
  simpa using foldl_jsSetInsert_fresh l [] hl (by simp)

/-- The tombstone list of a second merge round equals that of the first:
re-unioning the already-unioned tombstones with the remote tombstones is
the identity. -/
theorem jsSetOfList_round_trip (lD rD : List String) :
    jsSetOfList (jsSetOfList (lD ++ rD) ++ rD) = jsSetOfList (lD ++ rD) := by
  have hsplit : jsSetOfList (jsSetOfList (lD ++ rD) ++ rD)
      = rD.foldl jsSetInsert (jsSetOfList (jsSetOfList (lD ++ rD))) := by
    simp [jsSetOfList, List.foldl_append]
  rw [hsplit, jsSetOfList_of_nodup _ (nodup_jsSetOfList _)]
  exact foldl_jsSetInsert_of_subset rD (jsSetOfList (lD ++ rD))
    (fun x hx => (mem_jsSetOfList (lD ++ rD) x).mpr (List.mem_append.mpr (Or.inr hx)))

/-! ### Lemmas on the insertion-ordered map embedding -/

theorem mapGet_mapSet (m : MergeMap) (k j : String) (v : VocabularyLibrary) :
    mapGet (mapSet m k v) j = if k = j then some v else mapGet m j := by
  induction m with
  | nil =>
    by_cases h : k = j <;> simp [mapSet, mapGet, h]
  | cons p rest ih =>
    obtain ⟨k', v'⟩ := p
    by_cases hk : k' = k
    · subst hk
      by_cases hj : k' = j <;> simp [mapSet, mapGet, hj, ih]
    · by_cases hj : k' = j
      · subst hj
        have : ¬ k = k' := fun h => hk h.symm
        simp [mapSet, mapGet, hk, this]
      · simp [mapSet, mapGet, hk, hj, ih]

theorem mem_mapSet (m : MergeMap) (k : String) (v : VocabularyLibrary)
    (p : String × VocabularyLibrary) (hp : p ∈ mapSet m k v) :
    p ∈ m ∨ p = (k, v) := by
  induction m with
  | nil => simpa [mapSet] using hp
  | cons q rest ih =>
    obtain ⟨k', v'⟩ := q
    by_cases hk : k' = k
    · have hp' : p = (k, v) ∨ p ∈ rest := by simpa [mapSet, hk] using hp
      rcases hp' with h | h
      · exact Or.inr h
      · exact Or.inl (List.mem_cons_of_mem _ h)
    · simp only [mapSet, if_neg hk, List.mem_cons] at hp
      rcases hp with h | h
      · exact Or.inl (h ▸ List.mem_cons_self _ _)
      · rcases ih h with h' | h'
        · exact Or.inl (List.mem_cons_of_mem _ h')
        · exact Or.inr h'

theorem map_fst_mapSet_of_mem (m : MergeMap) (k : String) (v : VocabularyLibrary)
    (hk : k ∈ m.map Prod.fst) :
    (mapSet m k v).map Prod.fst = m.map Prod.fst := by
  induction m with
  | nil => simp at hk
  | cons q rest ih =>
    obtain ⟨k', v'⟩ := q
    by_cases h : k' = k
    · subst h
      simp [mapSet]
    · have hk' : k ∈ rest.map Prod.fst := by
        have hk2 : k = k' ∨ k ∈ rest.map Prod.fst := by simpa using hk
        rcases hk2 with h1 | h1
        · exact absurd h1.symm h
        · exact h1
      simp [mapSet, h, ih hk']

theorem map_fst_mapSet_of_not_mem (m : MergeMap) (k : String) (v : VocabularyLibrary)
    (hk : k ∉ m.map Prod.fst) :
    (mapSet m k v).map Prod.fst = m.map Prod.fst ++ [k] := by
  induction m with
  | nil => simp [mapSet]
  | cons q rest ih =>
    obtain ⟨k', v'⟩ := q
    have h : k' ≠ k := by
      intro hh
      exact hk (by simp [hh])
    have hk' : k ∉ rest.map Prod.fst := by
      intro hh
      exact hk (by simp [hh])
    simp [mapSet, h, ih hk']

theorem mapGet_eq_none_iff (m : MergeMap) (k : String) :
    mapGet m k = none ↔ k ∉ m.map Prod.fst := by
  induction m with
  | nil => simp [mapGet]
  | cons q rest ih =>
    obtain ⟨k', v'⟩ := q
    by_cases h : k' = k
    · subst h
      simp [mapGet]
    · rw [List.map_cons, List.mem_cons]
      simp only [mapGet, if_neg h, ih]
      constructor
      · rintro hnk (h1 | h1)
        · exact h h1.symm
        · exact hnk h1
      · intro hh h1
        exact hh (Or.inr h1)

theorem mapGet_mem (m : MergeMap) (k : String) (v : VocabularyLibrary)
    (h : mapGet m k = some v) : (k, v) ∈ m := by
  induction m with
  | nil => simp [mapGet] at h
  | cons q rest ih =>
    obtain ⟨k', v'⟩ := q
    by_cases hk : k' = k
    · subst hk
      have h' : v' = v := by simpa [mapGet] using h
      subst h'
      exact List.mem_cons_self _ _
    · simp only [mapGet, if_neg hk] at h
      exact List.mem_cons_of_mem _ (ih h)

theorem mapGet_eq_of_mem (m : MergeMap) (k : String) (v : VocabularyLibrary)
    (hnd : (m.map Prod.fst).Nodup) (h : (k, v) ∈ m) : mapGet m k = some v := by
  induction m with
  | nil => simp at h
  | cons q rest ih =>
    obtain ⟨k', v'⟩ := q
    have hnd' : k' ∉ rest.map Prod.fst ∧ (rest.map Prod.fst).Nodup :=
      List.nodup_cons.mp (by simpa using hnd)
    rcases List.mem_cons.mp h with h' | h'
    · injection h' with h1 h2
      subst h1
      subst h2
      simp [mapGet]
    · have hk : k' ≠ k := by
        intro hh
        subst hh
        exact hnd'.1 (List.mem_map_of_mem Prod.fst h')
      simp only [mapGet, if_neg hk]
      exact ih hnd'.2 h'

theorem mapSet_of_none (m : MergeMap) (k : String) (v : VocabularyLibrary)
    (h : mapGet m k = none) : mapSet m k v = m ++ [(k, v)] := by
  induction m with
  | nil => simp [mapSet]
  | cons q rest ih =>
    obtain ⟨k', v'⟩ := q
    by_cases hk : k' = k
    · subst hk
      simp [mapGet] at h
    · simp only [mapGet, if_neg hk] at h
      simp [mapSet, hk, ih h]

theorem mapGet_append_of_none (m m' : MergeMap) (k : String)
    (h : mapGet m k = none) : mapGet (m ++ m') k = mapGet m' k := by
  induction m with
  | nil => simp
  | cons q rest ih =>
    obtain ⟨k', v'⟩ := q
    by_cases hk : k' = k
    · subst hk
      simp [mapGet] at h
    · simp only [mapGet, if_neg hk] at h
      simpa [mapGet, hk] using ih h

/-! ### Lemmas on `processLib` and the tombstone-aware merge -/

/-- Invariant of the merge map built by `processLib`: each entry's key is
its library's id and is not tombstoned, and keys are distinct. -/
def GoodMap (dels : List String) (m : MergeMap) : Prop :=
  (∀ p ∈ m, p.1 = p.2.id ∧ p.1 ∉ dels) ∧ (m.map Prod.fst).Nodup

theorem goodMap_nil (dels : List String) : GoodMap dels [] :=
  ⟨by simp, List.nodup_nil⟩

theorem goodMap_mapSet (dels : List String) (m : MergeMap) (v : VocabularyLibrary)
    (hm : GoodMap dels m) (hv : v.id ∉ dels) : GoodMap dels (mapSet m v.id v) := by
  obtain ⟨hent, hnd⟩ := hm
  constructor
  · intro p hp
    rcases mem_mapSet m v.id v p hp with h | h
    · exact hent p h
    · subst h
      exact ⟨rfl, hv⟩
  · by_cases hmem : v.id ∈ m.map Prod.fst
    · rw [map_fst_mapSet_of_mem m v.id v hmem]
      exact hnd
    · rw [map_fst_mapSet_of_not_mem m v.id v hmem]
      have hmem' : ∀ x : VocabularyLibrary, (v.id, x) ∉ m := by
        intro x hx
        exact hmem (List.mem_map_of_mem Prod.fst hx)
      simpa [List.nodup_append] using ⟨hnd, hmem'⟩

theorem goodMap_processLib (dels : List String) (m : MergeMap)
    (lib : VocabularyLibrary) (hm : GoodMap dels m) :
    GoodMap dels (processLib dels m lib) := by
  unfold processLib
  by_cases hdel : lib.id ∈ dels
  · simpa [hdel] using hm
  · rw [if_neg hdel]
    cases hget : mapGet m lib.id with
    | none => exact goodMap_mapSet dels m lib hm hdel
    | some existing =>
      by_cases hlt : effTime existing < effTime lib
      · simpa [hlt] using goodMap_mapSet dels m lib hm hdel
      · simpa [hlt] using hm

theorem goodMap_foldl_processLib (dels : List String) (libs : List VocabularyLibrary)
    (m : MergeMap) (hm : GoodMap dels m) :
    GoodMap dels (libs.foldl (processLib dels) m) := by
  induction libs generalizing m with
  | nil => exact hm
  | cons x xs ih => exact ih (processLib dels m x) (goodMap_processLib dels m x hm)

theorem mapGet_processLib_ne (dels : List String) (m : MergeMap)
    (lib : VocabularyLibrary) (j : String) (h : lib.id ≠ j) :
    mapGet (processLib dels m lib) j = mapGet m j := by
  unfold processLib
  by_cases hdel : lib.id ∈ dels
  · rw [if_pos hdel]
  · rw [if_neg hdel]
    cases hget : mapGet m lib.id with
    | none => simp [mapGet_mapSet, h]
    | some existing =>
      by_cases hlt : effTime existing < effTime lib
      · simp [hlt, mapGet_mapSet, h]
      · simp [hlt]

theorem mapGet_foldl_processLib_ne (dels : List String) (libs : List VocabularyLibrary)
    (m : MergeMap) (j : String) (h : ∀ l ∈ libs, l.id ≠ j) :
    mapGet (libs.foldl (processLib dels) m) j = mapGet m j := by
  induction libs generalizing m with
  | nil => rfl
  | cons x xs ih =>
    rw [List.foldl_cons, ih (processLib dels m x) (fun l hl => h l (List.mem_cons_of_mem x hl)),
      mapGet_processLib_ne dels m x j (h x (List.mem_cons_self x xs))]

theorem mapGet_processLib_self_none (dels : List String) (m : MergeMap)
    (lib : VocabularyLibrary) (hdel : lib.id ∉ dels) (hget : mapGet m lib.id = none) :
    mapGet (processLib dels m lib) lib.id = some lib := by
  unfold processLib
  rw [if_neg hdel, hget]
  simp [mapGet_mapSet]

theorem mapGet_processLib_self_some (dels : List String) (m : MergeMap)
    (lib e : VocabularyLibrary) (hdel : lib.id ∉ dels) (hget : mapGet m lib.id = some e) :
    mapGet (processLib dels m lib) lib.id
      = some (if effTime e < effTime lib then lib else e) := by
  unfold processLib
  rw [if_neg hdel, hget]
  by_cases hlt : effTime e < effTime lib
  · simp [hlt, mapGet_mapSet]
  · simp [hlt, hget]

/-- Folding a list that contains exactly one library with id `a.id`,
starting from a map without that key: the final map holds `a` at that
key. -/
theorem mapGet_foldl_single_fresh (dels : List String) (P Q : List VocabularyLibrary)
    (a : VocabularyLibrary) (m : MergeMap)
    (hP : ∀ l ∈ P, l.id ≠ a.id) (hQ : ∀ l ∈ Q, l.id ≠ a.id)
    (hdel : a.id ∉ dels) (hm : mapGet m a.id = none) :
    mapGet ((P ++ a :: Q).foldl (processLib dels) m) a.id = some a := by
  rw [List.foldl_append, List.foldl_cons]
  have h1 : mapGet (P.foldl (processLib dels) m) a.id = none := by
    rw [mapGet_foldl_processLib_ne dels P m a.id hP]
    exact hm
  rw [mapGet_foldl_processLib_ne dels Q _ a.id hQ]
  exact mapGet_processLib_self_none dels _ a hdel h1

/-- Folding a list that contains exactly one library with id `b.id`,
starting from a map already holding `w` at that key: the final map holds
the strictly-more-recent of the two (the incumbent `w` on a tie). -/
theorem mapGet_foldl_single_existing (dels : List String) (P Q : List VocabularyLibrary)
    (b w : VocabularyLibrary) (m : MergeMap)
    (hP : ∀ l ∈ P, l.id ≠ b.id) (hQ : ∀ l ∈ Q, l.id ≠ b.id)
    (hdel : b.id ∉ dels) (hm : mapGet m b.id = some w) :
    mapGet ((P ++ b :: Q).foldl (processLib dels) m) b.id
      = some (if effTime w < effTime b then b else w) := by
  rw [List.foldl_append, List.foldl_cons]
  have h1 : mapGet (P.foldl (processLib dels) m) b.id = some w := by
    rw [mapGet_foldl_processLib_ne dels P m b.id hP]
    exact hm
  rw [mapGet_foldl_processLib_ne dels Q _ b.id hQ]
  exact mapGet_processLib_self_some dels _ b w hdel h1

/-- In a map satisfying the invariant, a stored library is retrieved by
its id, so any two values with the same id coincide with the stored
one. -/
theorem value_eq_of_mapGet (dels : List String) (m : MergeMap)
    (w lib : VocabularyLibrary) (i : String) (hgood : GoodMap dels m)
    (hget : mapGet m i = some w) (hmem : lib ∈ m.map Prod.snd) (hid : lib.id = i) :
    lib = w := by
  obtain ⟨p, hp, hsnd⟩ := List.mem_map.mp hmem
  have hkey : p.1 = i := by
    rw [(hgood.1 p hp).1, hsnd, hid]
  have : mapGet m i = some lib := by
    have := mapGet_eq_of_mem m p.1 p.2 hgood.2 hp
    rw [hkey] at this
    rw [this, hsnd]
  rw [this] at hget
  exact (Option.some.injEq _ _ ▸ hget)

/-- Shared characterization of the tombstone-aware merge on an id present
exactly once on each side: the surviving copy is the one with strictly
larger effective timestamp, the local copy on a tie, and it is the unique
library with that id in the result. -/
theorem smartMerge_shared_id_winner (L1 L2 R1 R2 : List VocabularyLibrary)
    (lD rD : List String) (a b : VocabularyLibrary) (hab : b.id = a.id)
    (hL1 : ∀ l ∈ L1, l.id ≠ a.id) (hL2 : ∀ l ∈ L2, l.id ≠ a.id)
    (hR1 : ∀ l ∈ R1, l.id ≠ a.id) (hR2 : ∀ l ∈ R2, l.id ≠ a.id)
    (hdelL : a.id ∉ lD) (hdelR : a.id ∉ rD) :
    (if effTime a < effTime b then b else a)
        ∈ (smartMergeLibraries (L1 ++ a :: L2) (R1 ++ b :: R2) lD rD).1 ∧
    ∀ lib ∈ (smartMergeLibraries (L1 ++ a :: L2) (R1 ++ b :: R2) lD rD).1,
      lib.id = a.id → lib = (if effTime a < effTime b then b else a) := by
  have hdel : a.id ∉ jsSetOfList (lD ++ rD) := by
    rw [mem_jsSetOfList, List.mem_append]
    rintro (h | h)
    · exact hdelL h
    · exact hdelR h
  set dels := jsSetOfList (lD ++ rD) with hdels
  have hlocal : mapGet ((L1 ++ a :: L2).foldl (processLib dels) []) a.id = some a :=
    mapGet_foldl_single_fresh dels L1 L2 a [] hL1 hL2 hdel rfl
  have hboth :
      mapGet ((R1 ++ b :: R2).foldl (processLib dels)
        ((L1 ++ a :: L2).foldl (processLib dels) [])) a.id
      = some (if effTime a < effTime b then b else a) := by
    have := mapGet_foldl_single_existing dels R1 R2 b a
      ((L1 ++ a :: L2).foldl (processLib dels) [])
      (by simpa [hab] using hR1) (by simpa [hab] using hR2)
      (by simpa [hab] using hdel) (by simpa [hab] using hlocal)
    simpa [hab] using this
  have hgood : GoodMap dels ((R1 ++ b :: R2).foldl (processLib dels)
      ((L1 ++ a :: L2).foldl (processLib dels) [])) :=
    goodMap_foldl_processLib dels _ _
      (goodMap_foldl_processLib dels _ [] (goodMap_nil dels))
  constructor
  · show _ ∈ List.map Prod.snd _
    exact List.mem_map.mpr ⟨(a.id, _), mapGet_mem _ _ _ hboth, rfl⟩
  · intro lib hmem hid
    exact value_eq_of_mapGet dels _ _ lib a.id hgood hboth hmem hid

/-! ### Monotonicity of the merge map along the fold -/

theorem mapGet_processLib_mono (dels : List String) (m : MergeMap)
    (x : VocabularyLibrary) (j : String) (v : VocabularyLibrary)
    (h : mapGet m j = some v) :
    ∃ v', mapGet (processLib dels m x) j = some v' ∧ effTime v ≤ effTime v' := by
  by_cases hid : x.id = j
  · rw [← hid] at h ⊢
    by_cases hdel : x.id ∈ dels
    · refine ⟨v, ?_, le_refl _⟩
      unfold processLib
      rw [if_pos hdel]
      exact h
    · by_cases hlt : effTime v < effTime x
      · exact ⟨x, by rw [mapGet_processLib_self_some dels m x v hdel h, if_pos hlt],
          le_of_lt hlt⟩
      · exact ⟨v, by rw [mapGet_processLib_self_some dels m x v hdel h, if_neg hlt],
          le_refl _⟩
  · exact ⟨v, by rw [mapGet_processLib_ne dels m x j hid]; exact h, le_refl _⟩

theorem mapGet_foldl_processLib_mono (dels : List String) (libs : List VocabularyLibrary)
    (m : MergeMap) (j : String) (v : VocabularyLibrary) (h : mapGet m j = some v) :
    ∃ v', mapGet (libs.foldl (processLib dels) m) j = some v' ∧ effTime v ≤ effTime v' := by
  induction libs generalizing m v with
  | nil => exact ⟨v, h, le_refl _⟩
  | cons x xs ih =>
    obtain ⟨v1, h1, hle1⟩ := mapGet_processLib_mono dels m x j v h
    obtain ⟨v2, h2, hle2⟩ := ih (processLib dels m x) v1 h1
    exact ⟨v2, h2, le_trans hle1 hle2⟩

theorem mapGet_processLib_self_ge (dels : List String) (m : MergeMap)
    (lib : VocabularyLibrary) (hdel : lib.id ∉ dels) :
    ∃ w, mapGet (processLib dels m lib) lib.id = some w ∧ effTime lib ≤ effTime w := by
  cases hget : mapGet m lib.id with
  | none =>
    exact ⟨lib, mapGet_processLib_self_none dels m lib hdel hget, le_refl _⟩
  | some e =>
    by_cases hlt : effTime e < effTime lib
    · refine ⟨lib, ?_, le_refl _⟩
      rw [mapGet_processLib_self_some dels m lib e hdel hget, if_pos hlt]
    · refine ⟨e, ?_, Nat.not_lt.mp hlt⟩
      rw [mapGet_processLib_self_some dels m lib e hdel hget, if_neg hlt]

/-- Every non-tombstoned library processed by the fold is dominated by
the final map entry at its id. -/
theorem foldl_processLib_dominates (dels : List String) (libs : List VocabularyLibrary)
    (m : MergeMap) (lib : VocabularyLibrary) (hlib : lib ∈ libs) (hdel : lib.id ∉ dels) :
    ∃ w, mapGet (libs.foldl (processLib dels) m) lib.id = some w
      ∧ effTime lib ≤ effTime w := by
  induction libs generalizing m with
  | nil => cases hlib
  | cons x xs ih =>
    rcases List.mem_cons.mp hlib with h | h
    · subst h
      obtain ⟨w1, h1, hle1⟩ := mapGet_processLib_self_ge dels m lib hdel
      obtain ⟨w2, h2, hle2⟩ := mapGet_foldl_processLib_mono dels xs _ lib.id w1 h1
      exact ⟨w2, by rw [List.foldl_cons]; exact h2, le_trans hle1 hle2⟩
    · rw [List.foldl_cons]
      exact ih (processLib dels m x) h

/-- Folding fresh, mutually distinct, non-tombstoned libraries appends
them to the map in order. -/
theorem foldl_processLib_fresh (dels : List String) (libs : List VocabularyLibrary) :
    ∀ m : MergeMap, (libs.map VocabularyLibrary.id).Nodup →
      (∀ l ∈ libs, l.id ∉ dels) → (∀ l ∈ libs, mapGet m l.id = none) →
      libs.foldl (processLib dels) m = m ++ libs.map (fun l => (l.id, l)) := by
  induction libs with
  | nil =>
    intro m _ _ _
    simp
  | cons x xs ih =>
    intro m hnd hdels hget
    have hnd' : x.id ∉ xs.map VocabularyLibrary.id ∧ (xs.map VocabularyLibrary.id).Nodup :=
      List.nodup_cons.mp (by simpa using hnd)
    rw [List.foldl_cons]
    have hx : processLib dels m x = m ++ [(x.id, x)] := by
      unfold processLib
      rw [if_neg (hdels x (List.mem_cons_self x xs)), hget x (List.mem_cons_self x xs)]
      exact mapSet_of_none m x.id x (hget x (List.mem_cons_self x xs))
    have hfresh : ∀ l ∈ xs, mapGet (m ++ [(x.id, x)]) l.id = none := by
      intro l hl
      rw [mapGet_append_of_none m _ l.id (hget l (List.mem_cons_of_mem _ hl))]
      have hne : x.id ≠ l.id := by
        intro hh
        exact hnd'.1 (hh ▸ List.mem_map_of_mem VocabularyLibrary.id hl)
      simp [mapGet, hne]
    rw [hx, ih (m ++ [(x.id, x)]) hnd'.2 (fun l hl => hdels l (List.mem_cons_of_mem _ hl)) hfresh]
    simp

theorem foldl_processLib_id (dels : List String) (libs : List VocabularyLibrary)
    (m : MergeMap) (h : ∀ b ∈ libs, processLib dels m b = m) :
    libs.foldl (processLib dels) m = m := by
  induction libs with
  | nil => rfl
  | cons x xs ih =>
    rw [List.foldl_cons, h x (List.mem_cons_self x xs)]
    exact ih (fun b hb => h b (List.mem_cons_of_mem _ hb))

/-- Re-merging an already merged state (as the local side) with the same
remote side changes nothing: the map's own values fold back to the map,
and every remote library is already dominated by its entry. -/
theorem smartMerge_second_round (rL : List VocabularyLibrary) (dels rD : List String)
    (m2 : MergeMap) (hgood : GoodMap dels m2)
    (hdom : ∀ b ∈ rL, b.id ∉ dels →
      ∃ w, mapGet m2 b.id = some w ∧ effTime b ≤ effTime w)
    (hdels : jsSetOfList (dels ++ rD) = dels) :
    smartMergeLibraries (m2.map Prod.snd) rL dels rD = (m2.map Prod.snd, dels) := by
  show ((rL.foldl (processLib (jsSetOfList (dels ++ rD)))
      ((m2.map Prod.snd).foldl (processLib (jsSetOfList (dels ++ rD))) [])).map Prod.snd,
    jsSetOfList (dels ++ rD)) = (m2.map Prod.snd, dels)
  rw [hdels]
  have hback : (m2.map Prod.snd).map (fun l => (l.id, l)) = m2 := by
    rw [List.map_map]
    have : ∀ p ∈ m2, ((fun l : VocabularyLibrary => (l.id, l)) ∘ Prod.snd) p = p := by
      intro p hp
      obtain ⟨k, v⟩ := p
      have hk := (hgood.1 (k, v) hp).1
      simp at hk
      simp [hk]
    rw [List.map_congr_left this]
    simp
  have hinner : (m2.map Prod.snd).foldl (processLib dels) [] = m2 := by
    have hids : ((m2.map Prod.snd).map VocabularyLibrary.id).Nodup := by
      rw [List.map_map]
      have : ∀ p ∈ m2, (VocabularyLibrary.id ∘ Prod.snd) p = Prod.fst p := by
        intro p hp
        exact ((hgood.1 p hp).1).symm
      rw [List.map_congr_left this]
      exact hgood.2
    have hdelsM : ∀ l ∈ m2.map Prod.snd, l.id ∉ dels := by
      intro l hl
      obtain ⟨p, hp, hsnd⟩ := List.mem_map.mp hl
      have := hgood.1 p hp
      rw [← hsnd, ← this.1]
      exact this.2
    have := foldl_processLib_fresh dels (m2.map Prod.snd) [] hids hdelsM
      (fun l _ => rfl)
    rw [this, hback]
    simp
  have houter : rL.foldl (processLib dels) m2 = m2 := by
    apply foldl_processLib_id
    intro b hb
    by_cases hdel : b.id ∈ dels
    · unfold processLib
      rw [if_pos hdel]
    · obtain ⟨w, hw, hle⟩ := hdom b hb hdel
      unfold processLib
      rw [if_neg hdel, hw]
      show (if effTime w < effTime b then mapSet m2 b.id b else m2) = m2
      exact if_neg (Nat.not_lt.mpr hle)
  rw [hinner, houter]

/-- C4: `smartMergeLibraries` is idempotent — feeding the merged
libraries and merged tombstones back in as the local side, with the
remote side unchanged, returns the same merged list and tombstone
set. -/
theorem smartMerge_idempotent (lL rL : List VocabularyLibrary) (lD rD : List String) :
    smartMergeLibraries (smartMergeLibraries lL rL lD rD).1 rL
      (smartMergeLibraries lL rL lD rD).2 rD = smartMergeLibraries lL rL lD rD := by
  have hgood : GoodMap (jsSetOfList (lD ++ rD))
      (rL.foldl (processLib (jsSetOfList (lD ++ rD)))
        (lL.foldl (processLib (jsSetOfList (lD ++ rD))) [])) :=
    goodMap_foldl_processLib _ _ _ (goodMap_foldl_processLib _ _ [] (goodMap_nil _))
  have hdom : ∀ b ∈ rL, b.id ∉ jsSetOfList (lD ++ rD) →
      ∃ w, mapGet (rL.foldl (processLib (jsSetOfList (lD ++ rD)))
        (lL.foldl (processLib (jsSetOfList (lD ++ rD))) [])) b.id = some w
        ∧ effTime b ≤ effTime w := by
    intro b hb hdel
    exact foldl_processLib_dominates (jsSetOfList (lD ++ rD)) rL
      (lL.foldl (processLib (jsSetOfList (lD ++ rD))) []) b hb hdel
  exact smartMerge_second_round rL (jsSetOfList (lD ++ rD)) rD
    (rL.foldl (processLib (jsSetOfList (lD ++ rD)))
      (lL.foldl (processLib (jsSetOfList (lD ++ rD))) []))
    hgood hdom (jsSetOfList_round_trip lD rD)

/-! ### Lemmas on the superseded item-union merge -/

theorem perm_insertByCreatedAtDesc (x : VocabularyItem) (l : List VocabularyItem) :
    (insertByCreatedAtDesc x l).Perm (x :: l) := by
  induction l with
  | nil => exact List.Perm.refl _
  | cons y ys ih =>
    unfold insertByCreatedAtDesc
    by_cases h : y.createdAt ≤ x.createdAt
    · rw [if_pos h]
    · rw [if_neg h]
      exact List.Perm.trans (List.Perm.cons y ih) (List.Perm.swap x y ys)

theorem perm_sortByCreatedAtDesc (l : List VocabularyItem) :
    (sortByCreatedAtDesc l).Perm l := by
  induction l with
  | nil => exact List.Perm.refl _
  | cons x xs ih =>
    exact List.Perm.trans (perm_insertByCreatedAtDesc x (sortByCreatedAtDesc xs))
      (List.Perm.cons x ih)

theorem sorted_insertByCreatedAtDesc (x : VocabularyItem) (l : List VocabularyItem)
    (hl : l.Pairwise (fun p q => q.createdAt ≤ p.createdAt)) :
    (insertByCreatedAtDesc x l).Pairwise (fun p q => q.createdAt ≤ p.createdAt) := by
  induction l with
  | nil => simp [insertByCreatedAtDesc]
  | cons y ys ih =>
    obtain ⟨hy, hys⟩ := List.pairwise_cons.mp hl
    unfold insertByCreatedAtDesc
    by_cases h : y.createdAt ≤ x.createdAt
    · rw [if_pos h]
      refine List.pairwise_cons.mpr ⟨?_, hl⟩
      intro z hz
      rcases List.mem_cons.mp hz with rfl | hz'
      · exact h
      · exact le_trans (hy z hz') h
    · rw [if_neg h]
      refine List.pairwise_cons.mpr ⟨?_, ih hys⟩
      intro z hz
      rcases List.mem_cons.mp ((perm_insertByCreatedAtDesc x ys).mem_iff.mp hz) with rfl | hz''
      · exact le_of_not_le h
      · exact hy z hz''

theorem sorted_sortByCreatedAtDesc (l : List VocabularyItem) :
    (sortByCreatedAtDesc l).Pairwise (fun p q => q.createdAt ≤ p.createdAt) := by
  induction l with
  | nil => simp [sortByCreatedAtDesc]
  | cons x xs ih => exact sorted_insertByCreatedAtDesc x (sortByCreatedAtDesc xs) ih

theorem unionItemsGo_acc_subset (incoming : List VocabularyItem) :
    ∀ acc seen, ∀ x ∈ acc, x ∈ unionItemsGo acc seen incoming := by
  induction incoming with
  | nil =>
    intro acc seen x hx
    exact hx
  | cons it rest ih =>
    intro acc seen x hx
    unfold unionItemsGo
    by_cases h : uniqueKeyOfItem it ∈ seen
    · rw [if_pos h]
      exact ih acc seen x hx
    · rw [if_neg h]
      exact ih _ _ x (List.mem_append.mpr (Or.inl hx))

theorem mem_unionItemsGo (incoming : List VocabularyItem) :
    ∀ acc seen, ∀ x ∈ unionItemsGo acc seen incoming, x ∈ acc ∨ x ∈ incoming := by
  induction incoming with
  | nil =>
    intro acc seen x hx
    exact Or.inl hx
  | cons it rest ih =>
    intro acc seen x hx
    unfold unionItemsGo at hx
    by_cases h : uniqueKeyOfItem it ∈ seen
    · rw [if_pos h] at hx
      rcases ih acc seen x hx with h1 | h1
      · exact Or.inl h1
      · exact Or.inr (List.mem_cons_of_mem _ h1)
    · rw [if_neg h] at hx
      rcases ih _ _ x hx with h1 | h1
      · rcases List.mem_append.mp h1 with h2 | h2
        · exact Or.inl h2
        · rw [List.mem_singleton] at h2
          exact Or.inr (h2 ▸ List.mem_cons_self _ _)
      · exact Or.inr (List.mem_cons_of_mem _ h1)

theorem unionItemsGo_key_covered (incoming : List VocabularyItem) :
    ∀ acc seen, (∀ k ∈ seen, ∃ x ∈ acc, uniqueKeyOfItem x = k) →
      ∀ it ∈ incoming,
        ∃ x ∈ unionItemsGo acc seen incoming, uniqueKeyOfItem x = uniqueKeyOfItem it := by
  induction incoming with
  | nil =>
    intro acc seen _ it hit
    cases hit
  | cons j rest ih =>
    intro acc seen hinv it hit
    unfold unionItemsGo
    by_cases h : uniqueKeyOfItem j ∈ seen
    · rw [if_pos h]
      rcases List.mem_cons.mp hit with rfl | hit'
      · obtain ⟨x, hx, hk⟩ := hinv _ h
        exact ⟨x, unionItemsGo_acc_subset rest acc seen x hx, hk⟩
      · exact ih acc seen hinv it hit'
    · rw [if_neg h]
      rcases List.mem_cons.mp hit with rfl | hit'
      · exact ⟨it, unionItemsGo_acc_subset rest _ _ it
          (List.mem_append.mpr (Or.inr (List.mem_singleton_self it))), rfl⟩
      · refine ih _ _ ?_ it hit'
        intro k hk
        rcases List.mem_append.mp hk with hk1 | hk2
        · obtain ⟨x, hx, hxk⟩ := hinv k hk1
          exact ⟨x, List.mem_append.mpr (Or.inl hx), hxk⟩
        · rw [List.mem_singleton] at hk2
          exact ⟨j, List.mem_append.mpr (Or.inr (List.mem_singleton_self j)), hk2.symm⟩

theorem unionItems_left_subset (ex inc : List VocabularyItem) :
    ∀ x ∈ ex, x ∈ unionItems ex inc :=
  fun x hx => unionItemsGo_acc_subset inc ex (ex.map uniqueKeyOfItem) x hx

theorem mem_unionItems (ex inc : List VocabularyItem) :
    ∀ x ∈ unionItems ex inc, x ∈ ex ∨ x ∈ inc :=
  fun x hx => mem_unionItemsGo inc ex (ex.map uniqueKeyOfItem) x hx

theorem unionItems_key_covered (ex inc : List VocabularyItem) :
    ∀ it ∈ inc, ∃ x ∈ unionItems ex inc, uniqueKeyOfItem x = uniqueKeyOfItem it := by
  apply unionItemsGo_key_covered inc ex (ex.map uniqueKeyOfItem)
  intro k hk
  obtain ⟨x, hx, hxk⟩ := List.mem_map.mp hk
  exact ⟨x, hx, hxk⟩

theorem goodMap_mapSet_key (dels : List String) (m : MergeMap) (k : String)
    (v : VocabularyLibrary) (hm : GoodMap dels m) (hk : k = v.id) (hkdel : k ∉ dels) :
    GoodMap dels (mapSet m k v) := by
  subst hk
  exact goodMap_mapSet dels m v hm hkdel

theorem goodMap_pushLib (m : MergeMap) (lib : VocabularyLibrary) (hm : GoodMap [] m) :
    GoodMap [] (pushLib m lib) := by
  unfold pushLib
  cases hget : mapGet m lib.id with
  | none => exact goodMap_mapSet_key [] m lib.id lib hm rfl (by simp)
  | some existed =>
    have hid : lib.id = existed.id := (hm.1 _ (mapGet_mem m lib.id existed hget)).1
    exact goodMap_mapSet_key [] m lib.id _ hm hid (by simp)

theorem goodMap_foldl_pushLib (libs : List VocabularyLibrary) (m : MergeMap)
    (hm : GoodMap [] m) : GoodMap [] (libs.foldl pushLib m) := by
  induction libs generalizing m with
  | nil => exact hm
  | cons x xs ih => exact ih (pushLib m x) (goodMap_pushLib m x hm)

theorem mapGet_pushLib_ne (m : MergeMap) (lib : VocabularyLibrary) (j : String)
    (h : lib.id ≠ j) : mapGet (pushLib m lib) j = mapGet m j := by
  unfold pushLib
  cases hget : mapGet m lib.id with
  | none => rw [mapGet_mapSet, if_neg h]
  | some existed => rw [mapGet_mapSet, if_neg h]

theorem mapGet_foldl_pushLib_ne (libs : List VocabularyLibrary) (m : MergeMap) (j : String)
    (h : ∀ l ∈ libs, l.id ≠ j) : mapGet (libs.foldl pushLib m) j = mapGet m j := by
  induction libs generalizing m with
  | nil => rfl
  | cons x xs ih =>
    rw [List.foldl_cons, ih (pushLib m x) (fun l hl => h l (List.mem_cons_of_mem x hl)),
      mapGet_pushLib_ne m x j (h x (List.mem_cons_self x xs))]

theorem mapGet_pushLib_self_none (m : MergeMap) (lib : VocabularyLibrary)
    (hget : mapGet m lib.id = none) : mapGet (pushLib m lib) lib.id = some lib := by
  unfold pushLib
  rw [hget]
  show mapGet (mapSet m lib.id lib) lib.id = some lib
  simp [mapGet_mapSet]

theorem mapGet_pushLib_self_some (m : MergeMap) (lib existed : VocabularyLibrary)
    (hget : mapGet m lib.id = some existed) :
    mapGet (pushLib m lib) lib.id
      = some { existed with
          items := sortByCreatedAtDesc (unionItems existed.items lib.items) } := by
  unfold pushLib
  rw [hget]
  show mapGet (mapSet m lib.id _) lib.id = _
  simp [mapGet_mapSet]

theorem mapGet_foldl_pushLib_single_fresh (P Q : List VocabularyLibrary)
    (a : VocabularyLibrary) (m : MergeMap)
    (hP : ∀ l ∈ P, l.id ≠ a.id) (hQ : ∀ l ∈ Q, l.id ≠ a.id)
    (hm : mapGet m a.id = none) :
    mapGet ((P ++ a :: Q).foldl pushLib m) a.id = some a := by
  rw [List.foldl_append, List.foldl_cons]
  have h1 : mapGet (P.foldl pushLib m) a.id = none := by
    rw [mapGet_foldl_pushLib_ne P m a.id hP]
    exact hm
  rw [mapGet_foldl_pushLib_ne Q _ a.id hQ]
  exact mapGet_pushLib_self_none _ a h1

theorem mapGet_foldl_pushLib_single_existing (P Q : List VocabularyLibrary)
    (b w : VocabularyLibrary) (m : MergeMap)
    (hP : ∀ l ∈ P, l.id ≠ b.id) (hQ : ∀ l ∈ Q, l.id ≠ b.id)
    (hm : mapGet m b.id = some w) :
    mapGet ((P ++ b :: Q).foldl pushLib m) b.id
      = some { w with items := sortByCreatedAtDesc (unionItems w.items b.items) } := by
  rw [List.foldl_append, List.foldl_cons]
  have h1 : mapGet (P.foldl pushLib m) b.id = some w := by
    rw [mapGet_foldl_pushLib_ne P m b.id hP]
    exact hm
  rw [mapGet_foldl_pushLib_ne Q _ b.id hQ]
  exact mapGet_pushLib_self_some _ b w h1

/-- Shared characterization of the superseded merge on an id present
exactly once on each side: the result's entry for that id is the first
(local) copy with its items extended by the new-keyed items of the second
(remote) copy and re-sorted, and it is the unique library with that id in
the result. -/
theorem mergeLibraries_entry (A1 A2 B1 B2 : List VocabularyLibrary)
    (la lb : VocabularyLibrary) (hid : lb.id = la.id)
    (hA1 : ∀ l ∈ A1, l.id ≠ la.id) (hA2 : ∀ l ∈ A2, l.id ≠ la.id)
    (hB1 : ∀ l ∈ B1, l.id ≠ la.id) (hB2 : ∀ l ∈ B2, l.id ≠ la.id) :
    ({ la with items := sortByCreatedAtDesc (unionItems la.items lb.items) }
        ∈ mergeLibraries (A1 ++ la :: A2) (B1 ++ lb :: B2)) ∧
    ∀ m ∈ mergeLibraries (A1 ++ la :: A2) (B1 ++ lb :: B2),
      m.id = la.id →
        m = { la with items := sortByCreatedAtDesc (unionItems la.items lb.items) } := by
  have hlocal : mapGet ((A1 ++ la :: A2).foldl pushLib []) la.id = some la :=
    mapGet_foldl_pushLib_single_fresh A1 A2 la [] hA1 hA2 rfl
  have hboth : mapGet (((A1 ++ la :: A2) ++ (B1 ++ lb :: B2)).foldl pushLib []) la.id
      = some { la with items := sortByCreatedAtDesc (unionItems la.items lb.items) } := by
    rw [List.foldl_append]
    have := mapGet_foldl_pushLib_single_existing B1 B2 lb la
      ((A1 ++ la :: A2).foldl pushLib [])
      (by simpa [hid] using hB1) (by simpa [hid] using hB2)
      (by simpa [hid] using hlocal)
    simpa [hid] using this
  have hgood : GoodMap [] (((A1 ++ la :: A2) ++ (B1 ++ lb :: B2)).foldl pushLib []) :=
    goodMap_foldl_pushLib _ [] (goodMap_nil [])
  constructor
  · show _ ∈ List.map Prod.snd _
    exact List.mem_map.mpr ⟨(la.id, _), mapGet_mem _ _ _ hboth, rfl⟩
  · intro m hmem hmid
    exact value_eq_of_mapGet [] _ _ m la.id hgood hboth hmem hmid

/-! ### Concrete fixtures for witnesses and counterexamples -/

/-- A concrete item-less library with the given name, id and timestamps. -/
def cexLib (nm i : String) (c : Nat) (u : Option Nat) : VocabularyLibrary :=
  { id := i, name := nm, category := none, items := [], createdAt := c, updatedAt := u }

def cexTombKeep : VocabularyLibrary := cexLib "keep" "a" 1 none

def cexTombGone : VocabularyLibrary := cexLib "gone" "x" 5 none

def cexTieLocal : VocabularyLibrary := cexLib "local-tie" "a" 0 (some 100)

def cexTieRemote : VocabularyLibrary := cexLib "remote-tie" "a" 0 (some 100)

def cexMaxLocal : VocabularyLibrary := cexLib "local-max" "a" 10 (some 5)

def cexMaxRemote : VocabularyLibrary := cexLib "remote-max" "a" 1 (some 7)

def cex100Local : VocabularyLibrary := cexLib "L100" "a" 0 (some 100)

def cex200Remote : VocabularyLibrary := cexLib "R200" "a" 0 (some 200)

def dupI1 : VocabularyItem :=
  { id := "1", chinese := "c", english := "e", type := .word, createdAt := 10 }

def dupI2 : VocabularyItem :=
  { id := "2", chinese := "c", english := "e", type := .word, createdAt := 5 }

/-- A local library carrying two distinct items with the same
`(type, english, chinese)` key. -/
def cexDupLib : VocabularyLibrary :=
  { id := "d", name := "dup", category := none, items := [dupI1, dupI2],
    createdAt := 0, updatedAt := none }

def cexDupEmpty : VocabularyLibrary :=
  { id := "d", name := "emp", category := none, items := [], createdAt := 0,
    updatedAt := none }

def uA : VocabularyItem :=
  { id := "ia", chinese := "ca", english := "ea", type := .word, createdAt := 10 }

def uB1 : VocabularyItem :=
  { id := "ib1", chinese := "ca", english := "ea", type := .word, createdAt := 99 }

def uB2 : VocabularyItem :=
  { id := "ib2", chinese := "cb", english := "eb", type := .sentence, createdAt := 50 }

def cexFrameA : VocabularyLibrary :=
  { id := "f", name := "localName", category := some .dictation, items := [uA],
    createdAt := 3, updatedAt := some 9 }

def cexFrameB : VocabularyLibrary :=
  { id := "f", name := "remoteName", category := some .readSpeak, items := [uB1, uB2],
    createdAt := 4, updatedAt := some 100 }

/-- The library the superseded merge produces for id "f": the local
copy's fields, items unioned (the remote duplicate-key item dropped) and
re-sorted by `createdAt` descending. -/
def cexFrameMerged : VocabularyLibrary :=
  { id := "f", name := "localName", category := some .dictation, items := [uB2, uA],
    createdAt := 3, updatedAt := some 9 }

/-! ### Claim theorems: the tombstone-aware merge -/

/-- C1: every library id contained in the union of `localTombstones` and
`remoteTombstones` is absent from the merged library list returned by
`smartMergeLibraries`, regardless of the `updatedAt`/`createdAt` values of
the copies on either side. -/
theorem smartMerge_tombstone_dominance
    (localLibs remoteLibs : List VocabularyLibrary)
    (localDeletedIds remoteDeletedIds : List String) (i : String)
    (hi : i ∈ localDeletedIds ∨ i ∈ remoteDeletedIds) :
    ∀ lib ∈ (smartMergeLibraries localLibs remoteLibs localDeletedIds remoteDeletedIds).1,
      lib.id ≠ i := by
  intro lib hmem hid
  have hgood : GoodMap (jsSetOfList (localDeletedIds ++ remoteDeletedIds))
      (remoteLibs.foldl (processLib (jsSetOfList (localDeletedIds ++ remoteDeletedIds)))
        (localLibs.foldl (processLib (jsSetOfList (localDeletedIds ++ remoteDeletedIds))) [])) :=
    goodMap_foldl_processLib _ _ _ (goodMap_foldl_processLib _ _ [] (goodMap_nil _))
  have hmem' : lib ∈ (remoteLibs.foldl
      (processLib (jsSetOfList (localDeletedIds ++ remoteDeletedIds)))
      (localLibs.foldl (processLib (jsSetOfList (localDeletedIds ++ remoteDeletedIds))) [])).map
        Prod.snd := hmem
  obtain ⟨p, hp, hsnd⟩ := List.mem_map.mp hmem'
  have hkey := hgood.1 p hp
  apply hkey.2
  rw [hkey.1, hsnd, hid, mem_jsSetOfList, List.mem_append]
  exact hi

/-- Witness for C1 at a concrete input: the locally tombstoned id "x" is
in the tombstone input, and the surviving library's id differs from
"x". -/
theorem smartMerge_tombstone_dominance_witness :
    ("x" ∈ (["x"] : List String) ∨ "x" ∈ ([] : List String)) ∧ cexTombKeep.id ≠ "x" :=
  ⟨Or.inl (by decide),
   smartMerge_tombstone_dominance [cexTombKeep, cexTombGone] [] ["x"] [] "x"
     (Or.inl (by decide)) cexTombKeep (by decide)⟩

/-- C5: the tombstone list returned by `smartMergeLibraries` has exactly
the elements of the union of the two tombstone inputs, so merging never
removes a tombstone. -/
theorem smartMerge_tombstone_union
    (localLibs remoteLibs : List VocabularyLibrary)
    (localDeletedIds remoteDeletedIds : List String) (x : String) :
    x ∈ (smartMergeLibraries localLibs remoteLibs localDeletedIds remoteDeletedIds).2
      ↔ x ∈ localDeletedIds ∨ x ∈ remoteDeletedIds := by
  show x ∈ jsSetOfList (localDeletedIds ++ remoteDeletedIds) ↔ _
  rw [mem_jsSetOfList, List.mem_append]

/-- Counterexample to C2 as stated.  First input pair: both copies of id
"a" have effective timestamp 100 (a tie), yet the merged result keeps the
*local* copy, not the remote one the claim promises.  Second input pair:
the local copy has `max(updatedAt, createdAt) = max 5 10 = 10`, strictly
larger than the remote copy's `max 7 1 = 7`, yet the merged result keeps
the *remote* copy, because the code compares `updatedAt || createdAt`
(5 against 7), not the maximum. -/
theorem smartMerge_lww_claim_counterexample :
    (smartMergeLibraries [cexTieLocal] [cexTieRemote] [] []).1 = [cexTieLocal] ∧
    cexTieRemote ∉ (smartMergeLibraries [cexTieLocal] [cexTieRemote] [] []).1 ∧
    max 5 10 > max 7 1 ∧
    (smartMergeLibraries [cexMaxLocal] [cexMaxRemote] [] []).1 = [cexMaxRemote] ∧
    cexMaxLocal ∉ (smartMergeLibraries [cexMaxLocal] [cexMaxRemote] [] []).1 := by
  decide

/-- C2 as amended: for a surviving library id appearing once on each
side, the merged result keeps the copy whose effective timestamp —
`updatedAt` when present and nonzero, otherwise `createdAt` — is strictly
larger, and when the two effective timestamps are equal the copy
processed *first* (the local one) is kept. -/
theorem smartMerge_lww_effective_timestamp (L1 L2 R1 R2 : List VocabularyLibrary)
    (lD rD : List String) (a b : VocabularyLibrary) (hab : b.id = a.id)
    (hL1 : ∀ l ∈ L1, l.id ≠ a.id) (hL2 : ∀ l ∈ L2, l.id ≠ a.id)
    (hR1 : ∀ l ∈ R1, l.id ≠ a.id) (hR2 : ∀ l ∈ R2, l.id ≠ a.id)
    (hdelL : a.id ∉ lD) (hdelR : a.id ∉ rD) :
    (if effTime a < effTime b then b else a)
        ∈ (smartMergeLibraries (L1 ++ a :: L2) (R1 ++ b :: R2) lD rD).1 ∧
    ∀ lib ∈ (smartMergeLibraries (L1 ++ a :: L2) (R1 ++ b :: R2) lD rD).1,
      lib.id = a.id → lib = (if effTime a < effTime b then b else a) :=
  smartMerge_shared_id_winner L1 L2 R1 R2 lD rD a b hab hL1 hL2 hR1 hR2 hdelL hdelR

/-- Witness for the amended C2 at the tie input: the local copy survives
the merge. -/
theorem smartMerge_lww_effective_timestamp_witness :
    cexTieLocal ∈ (smartMergeLibraries [cexTieLocal] [cexTieRemote] [] []).1 := by
  have h := (smartMerge_lww_effective_timestamp [] [] [] [] [] []
    cexTieLocal cexTieRemote (by decide) (by decide) (by decide) (by decide) (by decide)
    (by decide) (by decide)).1
  rw [if_neg (by decide : ¬ effTime cexTieLocal < effTime cexTieRemote)] at h
  simpa using h

/-- C3: when the two sides hold copies of the same surviving id with
`updatedAt` 100 and 200 (in either direction), the merged result contains
the copy with `updatedAt` 200 and no other library with that id. -/
theorem smartMerge_lww_100_200 (L1 L2 R1 R2 : List VocabularyLibrary)
    (lD rD : List String) (a b : VocabularyLibrary) (hab : b.id = a.id)
    (hL1 : ∀ l ∈ L1, l.id ≠ a.id) (hL2 : ∀ l ∈ L2, l.id ≠ a.id)
    (hR1 : ∀ l ∈ R1, l.id ≠ a.id) (hR2 : ∀ l ∈ R2, l.id ≠ a.id)
    (hdelL : a.id ∉ lD) (hdelR : a.id ∉ rD) :
    ((a.updatedAt = some 100 ∧ b.updatedAt = some 200) →
      b ∈ (smartMergeLibraries (L1 ++ a :: L2) (R1 ++ b :: R2) lD rD).1 ∧
      ∀ lib ∈ (smartMergeLibraries (L1 ++ a :: L2) (R1 ++ b :: R2) lD rD).1,
        lib.id = a.id → lib = b) ∧
    ((a.updatedAt = some 200 ∧ b.updatedAt = some 100) →
      a ∈ (smartMergeLibraries (L1 ++ a :: L2) (R1 ++ b :: R2) lD rD).1 ∧
      ∀ lib ∈ (smartMergeLibraries (L1 ++ a :: L2) (R1 ++ b :: R2) lD rD).1,
        lib.id = a.id → lib = a) := by
  have h := smartMerge_shared_id_winner L1 L2 R1 R2 lD rD a b hab hL1 hL2 hR1 hR2 hdelL hdelR
  constructor
  · rintro ⟨ha, hb⟩
    have ha' : effTime a = 100 := by simp [effTime, ha]
    have hb' : effTime b = 200 := by simp [effTime, hb]
    have heff : effTime a < effTime b := by
      rw [ha', hb']
      decide
    rw [if_pos heff] at h
    exact h
  · rintro ⟨ha, hb⟩
    have ha' : effTime a = 200 := by simp [effTime, ha]
    have hb' : effTime b = 100 := by simp [effTime, hb]
    have heff : ¬ effTime a < effTime b := by
      rw [ha', hb']
      decide
    rw [if_neg heff] at h
    exact h

/-- Witness for C3 at a concrete input: local `updatedAt = 100`, remote
`updatedAt = 200`, the remote copy survives. -/
theorem smartMerge_lww_100_200_witness :
    cex200Remote ∈ (smartMergeLibraries [cex100Local] [cex200Remote] [] []).1 := by
  have h := (smartMerge_lww_100_200 [] [] [] [] [] [] cex100Local cex200Remote
    (by decide) (by decide) (by decide) (by decide) (by decide) (by decide) (by decide)).1
    ⟨rfl, rfl⟩
  simpa using h.1

/-! ### Claim theorems: `pullAndMerge` -/

/-- C6: the progress resolution in `pullAndMerge` picks a whole
`PracticeProgress` value: with both present the one with the larger
timestamp wins and the remote one wins a tie (both captured by the
`if l.timestamp ≤ r.timestamp` selection), with one present that one is
kept, and with neither the result is null. -/
theorem chooseProgress_resolution (r l : PracticeProgress) :
    chooseProgress (some r) (some l)
        = (if l.timestamp ≤ r.timestamp then some r else some l) ∧
    chooseProgress (some r) none = some r ∧
    chooseProgress none (some l) = some l ∧
    chooseProgress (none : Option PracticeProgress) none = none :=
  ⟨rfl, rfl, rfl, rfl⟩

/-- C7: a remote document whose `libraries` or `deletedLibraryIds` field
is not an array is treated exactly like one carrying an empty array
there, and the sync still performs the merge (which, being a total
function, raises no error). -/
theorem pullAndMerge_malformed_coerced (v w : String)
    (f : RawField VocabularyLibrary) (g : RawField String)
    (p : Option PracticeProgress) (st : LocalState) (now : Nat) :
    pullAndMergeCore (some ⟨RawField.other v, g, p⟩) st now
      = pullAndMergeCore (some ⟨RawField.arr [], g, p⟩) st now ∧
    pullAndMergeCore (some ⟨f, RawField.other w, p⟩) st now
      = pullAndMergeCore (some ⟨f, RawField.arr [], p⟩) st now ∧
    (pullAndMergeCore (some ⟨RawField.other v, RawField.other w, p⟩) st now).2.libraries
      = (smartMergeLibraries st.libraries [] st.deletedLibraryIds []).1 :=
  ⟨rfl, rfl, rfl⟩

/-- C8: with no remote document, `pullAndMergeCore` leaves the local
state untouched and uploads exactly the local snapshot, stamped with the
current time; no merge transformation is applied. -/
theorem pullAndMerge_first_sync (st : LocalState) (now : Nat) :
    pullAndMergeCore none st now
      = (st, { libraries := st.libraries, deletedLibraryIds := st.deletedLibraryIds,
               practiceProgress := st.practiceProgress, updatedAt := now }) :=
  rfl

/-! ### Claim theorems: the superseded item-union merge -/

/-- Counterexample to C9 as stated: the local copy of id "d" already
holds two *distinct* items sharing the key `(kind, text_target,
text_native)`, and the merged library for "d" — an id present in both
inputs — retains both, so the result is not a duplicate-free union keyed
by that triple. -/
theorem mergeLibraries_dedup_counterexample :
    mergeLibraries [cexDupLib] [cexDupEmpty] = [cexDupLib] ∧
    uniqueKeyOfItem dupI1 = uniqueKeyOfItem dupI2 ∧
    dupI1 ≠ dupI2 ∧ dupI1 ∈ cexDupLib.items ∧ dupI2 ∈ cexDupLib.items := by
  decide

/-- C9 as amended: for a library id present once on each side of the
superseded, tombstone-free merge, the result's unique library with that
id is the first (local) copy with its items extended by those items of
the second (remote) copy whose key `(kind, text_target, text_native)` is
not already represented, the whole list re-sorted by `createdAt`
descending; cross-side and within-remote duplicates are dropped, but
duplicate keys already inside the local copy are kept.  Every merged item
comes from one of the two copies, all local items survive, and every
remote item's key is represented in the result. -/
theorem mergeLibraries_item_union (A1 A2 B1 B2 : List VocabularyLibrary)
    (la lb : VocabularyLibrary) (hid : lb.id = la.id)
    (hA1 : ∀ l ∈ A1, l.id ≠ la.id) (hA2 : ∀ l ∈ A2, l.id ≠ la.id)
    (hB1 : ∀ l ∈ B1, l.id ≠ la.id) (hB2 : ∀ l ∈ B2, l.id ≠ la.id) :
    ({ la with items := sortByCreatedAtDesc (unionItems la.items lb.items) }
        ∈ mergeLibraries (A1 ++ la :: A2) (B1 ++ lb :: B2)) ∧
    (∀ m ∈ mergeLibraries (A1 ++ la :: A2) (B1 ++ lb :: B2), m.id = la.id →
        m = { la with items := sortByCreatedAtDesc (unionItems la.items lb.items) }) ∧
    (sortByCreatedAtDesc (unionItems la.items lb.items)).Pairwise
      (fun p q => q.createdAt ≤ p.createdAt) ∧
    (∀ x ∈ la.items, x ∈ sortByCreatedAtDesc (unionItems la.items lb.items)) ∧
    (∀ x ∈ sortByCreatedAtDesc (unionItems la.items lb.items),
        x ∈ la.items ∨ x ∈ lb.items) ∧
    (∀ it ∈ lb.items, ∃ x ∈ sortByCreatedAtDesc (unionItems la.items lb.items),
        uniqueKeyOfItem x = uniqueKeyOfItem it) := by
  obtain ⟨h1, h2⟩ := mergeLibraries_entry A1 A2 B1 B2 la lb hid hA1 hA2 hB1 hB2
  refine ⟨h1, h2, sorted_sortByCreatedAtDesc _, ?_, ?_, ?_⟩
  · intro x hx
    exact (perm_sortByCreatedAtDesc _).mem_iff.mpr (unionItems_left_subset _ _ x hx)
  · intro x hx
    exact mem_unionItems _ _ x ((perm_sortByCreatedAtDesc _).mem_iff.mp hx)
  · intro it hit
    obtain ⟨x, hx, hk⟩ := unionItems_key_covered la.items lb.items it hit
    exact ⟨x, (perm_sortByCreatedAtDesc _).mem_iff.mpr hx, hk⟩

/-- Witness for the amended C9 at a concrete input: the merged library
keeps the local copy's fields, drops the remote item whose key duplicates
a local one, keeps the remote item with a new key, and sorts by
`createdAt` descending. -/
theorem mergeLibraries_item_union_witness :
    cexFrameMerged ∈ mergeLibraries [cexFrameA] [cexFrameB] := by
  have h := (mergeLibraries_item_union [] [] [] [] cexFrameA cexFrameB (by decide)
    (by decide) (by decide) (by decide) (by decide)).1
  have he : ({ cexFrameA with
      items := sortByCreatedAtDesc (unionItems cexFrameA.items cexFrameB.items) }
      : VocabularyLibrary) = cexFrameMerged := by decide
  rw [he] at h
  exact h

/-- C10: in the superseded merge, for a library id present once on each
side, every field of the merged library other than `items` equals the
first (local) copy's field, regardless of either side's timestamps. -/
theorem mergeLibraries_frame_fields (A1 A2 B1 B2 : List VocabularyLibrary)
    (la lb : VocabularyLibrary) (hid : lb.id = la.id)
    (hA1 : ∀ l ∈ A1, l.id ≠ la.id) (hA2 : ∀ l ∈ A2, l.id ≠ la.id)
    (hB1 : ∀ l ∈ B1, l.id ≠ la.id) (hB2 : ∀ l ∈ B2, l.id ≠ la.id) :
    (∀ m ∈ mergeLibraries (A1 ++ la :: A2) (B1 ++ lb :: B2), m.id = la.id →
        m.name = la.name ∧ m.category = la.category ∧ m.createdAt = la.createdAt ∧
        m.updatedAt = la.updatedAt) ∧
    ({ la with items := sortByCreatedAtDesc (unionItems la.items lb.items) }
        ∈ mergeLibraries (A1 ++ la :: A2) (B1 ++ lb :: B2)) := by
  obtain ⟨h1, h2⟩ := mergeLibraries_entry A1 A2 B1 B2 la lb hid hA1 hA2 hB1 hB2
  refine ⟨?_, h1⟩
  intro m hm hmid
  rw [h2 m hm hmid]
  exact ⟨rfl, rfl, rfl, rfl⟩

/-- Witness for C10 at a concrete input: even though the remote copy is
newer (`updatedAt` 100 against 9), the merged library keeps the local
name, category and timestamps. -/
theorem mergeLibraries_frame_fields_witness :
    cexFrameMerged.name = cexFrameA.name ∧ cexFrameMerged.category = cexFrameA.category ∧
    cexFrameMerged.createdAt = cexFrameA.createdAt ∧
    cexFrameMerged.updatedAt = cexFrameA.updatedAt :=
  (mergeLibraries_frame_fields [] [] [] [] cexFrameA cexFrameB (by decide)
    (by decide) (by decide) (by decide) (by decide)).1 cexFrameMerged (by decide) (by decide)

end EnglishForge
